import Mathlib

/-!
Verification development for the LinkedIn bulk resume downloader
(`background.js`, `content.js`).  The JavaScript source is shallowly
embedded: pure helper functions become Lean functions over `List Char` /
`String`, the background download queue becomes an explicit labelled
transition system, and the per-candidate orchestrator loop becomes a
recursive function over an abstract per-candidate outcome oracle.
-/

namespace LBRD

/-! ## Filename sanitisation (`background.js` `buildFilename`,
`content.js` `sanitiseName` / `buildDownloadFilename`)

The JS pipeline is `str.trim().replace(/\s+/g, "_").replace(/[^\w\-]/g, "")
.substring(0, 80)`, with the placeholder substituted for an empty result.
`\s` is the ECMAScript whitespace class; `\w` (no `u` flag) is ASCII
`[A-Za-z0-9_]`. -/

/-- Characters matched by the ECMAScript `\s` class (WhiteSpace plus
LineTerminator code points), used by `trim` and `replace(/\s+/g, "_")`. -/
def jsWhitespaceChars : List Char :=
  [' ', '\t', '\n', '\r', '\x0b', '\x0c', '\u00A0', '\u1680',
   '\u2000', '\u2001', '\u2002', '\u2003', '\u2004', '\u2005', '\u2006',
   '\u2007', '\u2008', '\u2009', '\u200A', '\u2028', '\u2029', '\u202F',
   '\u205F', '\u3000', '\uFEFF']

/-- Membership test for the ECMAScript whitespace class. -/
def jsWhitespace (c : Char) : Bool := jsWhitespaceChars.contains c

/-- ECMAScript `\w` (no unicode flag): ASCII letters, digits, underscore. -/
def isWordChar (c : Char) : Bool := c.isAlpha || c.isDigit || c == '_'

/-- A character kept by `replace(/[^\w\-]/g, "")`: `\w` or a hyphen. -/
def isAllowedChar (c : Char) : Bool := isWordChar c || c == '-'

/-- String.prototype.trim: drop whitespace from both ends. -/
def trimChars (l : List Char) : List Char :=
  ((l.dropWhile jsWhitespace).reverse.dropWhile jsWhitespace).reverse

/-- Worker for `replace(/\s+/g, "_")`: each maximal whitespace run becomes
a single underscore.  The flag records whether we are inside a run. -/
def collapseWsAux : Bool → List Char → List Char
  | _, [] => []
  | inRun, c :: rest =>
    if jsWhitespace c then
      if inRun then collapseWsAux true rest else '_' :: collapseWsAux true rest
    else c :: collapseWsAux false rest

/-- `replace(/\s+/g, "_")`. -/
def collapseWs (l : List Char) : List Char := collapseWsAux false l

/-- The JS chain `.trim().replace(/\s+/g, "_").replace(/[^\w\-]/g, "")
.substring(0, 80)` shared by `buildFilename` (background.js:88-92),
`buildDownloadFilename` (content.js:489-490) and `sanitiseName`
(content.js:112-114). -/
def sanitiseCharList (l : List Char) : List Char :=
  ((collapseWs (trimChars l)).filter isAllowedChar).take 80

/-- content.js:112-114 `sanitiseName`: the sanitisation chain with the
`|| "Unknown_Candidate"` fallback on an empty (falsy) result. -/
def sanitiseName (raw : String) : String :=
  let s := String.mk (sanitiseCharList raw.data)
  if s = "" then "Unknown_Candidate" else s

/-- The `safe` base of `buildFilename` (background.js:86-94 and the
identical content.js:488-491): `(candidateName || "Unknown_Candidate")`
(the empty string is falsy) fed through the sanitisation chain, with the
placeholder substituted again if the result is empty. -/
def safeBaseList (candidateName : String) : List Char :=
  let base := if candidateName = "" then "Unknown_Candidate" else candidateName
  let safe0 := sanitiseCharList base.data
  if safe0 = [] then "Unknown_Candidate".data else safe0

/-- background.js:86-99 `buildFilename` (= content.js:488-494
`buildDownloadFilename`).  `ts` stands for
`new Date().toISOString().slice(0, 10)`, the current date `YYYY-MM-DD`. -/
def buildFilename (candidateName ts : String) : String :=
  String.mk (safeBaseList candidateName) ++ "_Resume_" ++ ts ++ ".pdf"

/-- Classifier used to state the `\d{4}-\d{2}-\d{2}` shape: digit / hyphen /
other. -/
def charClass3 (c : Char) : Nat := if c.isDigit then 0 else if c == '-' then 1 else 2

/-- Decidable test that a character list matches `\d{4}-\d{2}-\d{2}`. -/
def dateShape (l : List Char) : Bool :=
  (l.map charClass3) == [0, 0, 0, 0, 1, 0, 0, 1, 0, 0]

/-- Decidable test, on character lists, for the spec regex
`[A-Za-z0-9_-]+_Resume_\d{4}-\d{2}-\d{2}\.pdf` anchored at both ends.
Since neither the base class nor the date may contain a dot, a string is in
the regex language exactly when its last 22 characters are the literal
`_Resume_`, a date of shape `\d{4}-\d{2}-\d{2}` and the literal `.pdf`,
and the (non-empty) remainder consists of allowed characters. -/
def matchesResumePatternL (l : List Char) : Bool :=
  decide (23 ≤ l.length) && (l.take (l.length - 22)).all isAllowedChar &&
    ((l.drop (l.length - 22)).take 8 == "_Resume_".data) &&
    dateShape (((l.drop (l.length - 22)).drop 8).take 10) &&
    (((l.drop (l.length - 22)).drop 8).drop 10 == ".pdf".data)

/-- String version of `matchesResumePatternL`. -/
def matchesResumePattern (s : String) : Bool :=
  matchesResumePatternL s.data

/-! ### Sanitiser lemmas -/

theorem string_data_ext {s t : String} (h : s.data = t.data) : s = t := by
  cases s; cases t; exact congrArg String.mk h

theorem sanitise_all_allowed (l : List Char) :
    ∀ c ∈ sanitiseCharList l, isAllowedChar c = true := by
  intro c hc
  exact List.of_mem_filter (List.take_subset _ _ hc)

theorem sanitise_length_le (l : List Char) : (sanitiseCharList l).length ≤ 80 := by
  unfold sanitiseCharList
  rw [List.length_take]
  exact Nat.min_le_left _ _

theorem safeBaseList_ne_nil (n : String) : safeBaseList n ≠ [] := by
  simp only [safeBaseList]
  split <;> split <;> first | decide | assumption

theorem safeBaseList_allowed (n : String) :
    ∀ c ∈ safeBaseList n, isAllowedChar c = true := by
  simp only [safeBaseList]
  split <;> split <;> first | decide | exact sanitise_all_allowed _

theorem dateShape_length {l : List Char} (h : dateShape l = true) :
    l.length = 10 := by
  unfold dateShape at h
  have h2 : l.map charClass3 = [0, 0, 0, 0, 1, 0, 0, 1, 0, 0] := eq_of_beq h
  have h3 := congrArg List.length h2
  simpa using h3

theorem matchesResumePattern_of (b ts : List Char) (hb : b ≠ [])
    (hall : ∀ c ∈ b, isAllowedChar c = true) (hts : dateShape ts = true) :
    matchesResumePatternL (b ++ "_Resume_".data ++ ts ++ ".pdf".data) = true := by
  have hts10 : ts.length = 10 := dateShape_length hts
  have hb1 : 1 ≤ b.length := List.length_pos.mpr hb
  have hassoc : b ++ "_Resume_".data ++ ts ++ ".pdf".data
      = b ++ ("_Resume_".data ++ (ts ++ ".pdf".data)) := by
    simp [List.append_assoc]
  rw [hassoc]
  unfold matchesResumePatternL
  have hlen : (b ++ ("_Resume_".data ++ (ts ++ ".pdf".data))).length
      = b.length + 22 := by
    simp [List.length_append, hts10]
  rw [hlen]
  have hsub : b.length + 22 - 22 = b.length := by omega
  rw [hsub]
  have htake : (b ++ ("_Resume_".data ++ (ts ++ ".pdf".data))).take b.length = b :=
    List.take_left _ _
  have hdrop : (b ++ ("_Resume_".data ++ (ts ++ ".pdf".data))).drop b.length
      = "_Resume_".data ++ (ts ++ ".pdf".data) :=
    List.drop_left _ _
  rw [htake, hdrop]
  have h8 : ("_Resume_".data).length = 8 := by decide
  have htake8 : ("_Resume_".data ++ (ts ++ ".pdf".data)).take 8 = "_Resume_".data := by
    rw [← h8]; exact List.take_left _ _
  have hdrop8 : ("_Resume_".data ++ (ts ++ ".pdf".data)).drop 8 = ts ++ ".pdf".data := by
    rw [← h8]; exact List.drop_left _ _
  have htake10 : (ts ++ ".pdf".data).take 10 = ts := by
    rw [← hts10]; exact List.take_left _ _
  have hdrop10 : (ts ++ ".pdf".data).drop 10 = ".pdf".data := by
    rw [← hts10]; exact List.drop_left _ _
  rw [htake8, hdrop8, htake10, hdrop10]
  simp [List.all_eq_true, hts]
  exact ⟨hb1, hall⟩

/-- C1: for every candidate name (empty, punctuation-only, overlong
included) and every current date of shape `YYYY-MM-DD`, `buildFilename`
produces `<base>_Resume_<date>.pdf` where the base is the trimmed,
whitespace-collapsed, stripped, 80-truncated name (placeholder
`Unknown_Candidate` when empty), so the result is non-empty and matches
`[A-Za-z0-9_-]+_Resume_\d{4}-\d{2}-\d{2}\.pdf` with the date part equal to
the current date. -/
theorem buildFilename_matches_pattern (name ts : String)
    (hts : dateShape ts.data = true) :
    matchesResumePattern (buildFilename name ts) = true ∧
    buildFilename name ts
      = String.mk (safeBaseList name) ++ "_Resume_" ++ ts ++ ".pdf" := by
  constructor
  · have hdecomp : buildFilename name ts
        = String.mk (safeBaseList name ++ "_Resume_".data ++ ts.data ++ ".pdf".data) := by
      apply string_data_ext
      simp [buildFilename]
    rw [hdecomp]
    exact matchesResumePattern_of _ _ (safeBaseList_ne_nil name)
      (safeBaseList_allowed name) hts
  · rfl

/-- Witness for C1 at a concrete awkward input: leading/trailing blanks,
an internal whitespace run, punctuation to strip, and a fixed date. -/
theorem buildFilename_matches_pattern_witness :
    dateShape ("2026-10-11".data) = true ∧
    matchesResumePattern (buildFilename "  Ada   Lovelace!! (CS)  " "2026-10-11") = true := by
  refine ⟨by decide, ?_⟩
  exact (buildFilename_matches_pattern "  Ada   Lovelace!! (CS)  " "2026-10-11" (by decide)).1

/-! ### Idempotence of the sanitisation core (C9) -/

theorem ws_not_allowed {c : Char} (h : jsWhitespace c = true) :
    isAllowedChar c = false := by
  have hm : c ∈ jsWhitespaceChars := by
    have : jsWhitespaceChars.elem c = true := h
    exact (List.elem_iff).mp this
  have hall : ∀ x ∈ jsWhitespaceChars, isAllowedChar x = false := by decide
  exact hall c hm

theorem allowed_not_ws {c : Char} (h : isAllowedChar c = true) :
    jsWhitespace c = false := by
  cases hw : jsWhitespace c
  · rfl
  · rw [ws_not_allowed hw] at h; cases h

theorem dropWhile_of_forall_not {p : Char → Bool} {l : List Char}
    (h : ∀ c ∈ l, p c = false) : l.dropWhile p = l := by
  cases l with
  | nil => rfl
  | cons a l => simp [List.dropWhile, h a (List.mem_cons_self a l)]

theorem trimChars_of_allowed {l : List Char}
    (h : ∀ c ∈ l, isAllowedChar c = true) : trimChars l = l := by
  unfold trimChars
  rw [dropWhile_of_forall_not (fun c hc => allowed_not_ws (h c hc))]
  rw [dropWhile_of_forall_not
    (fun c hc => allowed_not_ws (h c (List.mem_reverse.mp hc)))]
  exact List.reverse_reverse l

theorem collapseWsAux_of_allowed (l : List Char) :
    (∀ c ∈ l, isAllowedChar c = true) → ∀ b, collapseWsAux b l = l := by
  induction l with
  | nil => intro _ b; rfl
  | cons a l ih =>
    intro h b
    have ha := allowed_not_ws (h a (List.mem_cons_self a l))
    simp [collapseWsAux, ha]
    exact ih (fun c hc => h c (List.mem_cons_of_mem a hc)) false

theorem sanitise_idem (l : List Char) :
    sanitiseCharList (sanitiseCharList l) = sanitiseCharList l := by
  have hall := sanitise_all_allowed l
  have hlen := sanitise_length_le l
  show ((collapseWs (trimChars (sanitiseCharList l))).filter isAllowedChar).take 80
      = sanitiseCharList l
  rw [trimChars_of_allowed hall]
  unfold collapseWs
  rw [collapseWsAux_of_allowed _ hall false]
  rw [List.filter_eq_self.mpr hall]
  exact List.take_of_length_le hlen

/-- C9: the sanitisation core (trim, collapse whitespace to underscores,
strip disallowed characters, truncate to 80, placeholder on empty) is
idempotent; since `buildFilename` is a pure Lean function of the name and
the date string, determinism for a fixed name and date is definitional. -/
theorem sanitiseName_idempotent (raw : String) :
    sanitiseName (sanitiseName raw) = sanitiseName raw := by
  unfold sanitiseName
  by_cases h : String.mk (sanitiseCharList raw.data) = ""
  · rw [if_pos h]
    decide
  · rw [if_neg h]
    show (if String.mk (sanitiseCharList (String.mk (sanitiseCharList raw.data)).data) = ""
          then "Unknown_Candidate"
          else String.mk (sanitiseCharList (String.mk (sanitiseCharList raw.data)).data))
        = String.mk (sanitiseCharList raw.data)
    have hd : (String.mk (sanitiseCharList raw.data)).data = sanitiseCharList raw.data := rfl
    rw [hd, sanitise_idem]
    exact if_neg h

/-! ## Download orchestrator (content.js:674-808 `startBulkDownload`)

The loop is embedded as a recursive function.  The environment-dependent
work for a candidate (clicking, button polling, URL capture) is abstracted
into a per-candidate `StepOutcome` oracle matching the four exit paths of
the loop body: the `catch` branch, the two missing-button `continue`
branches, and the fall-through end of the `try` block (reached with or
without a captured transfer — `captured` records whether any of the
capture strategies actually succeeded). -/

/-- Result of one candidate's processing step, the four exit paths of the
loop body at content.js:691-796. -/
inductive StepOutcome where
  | throws (msg : String)
  | noResumeButton
  | noDownloadButton
  | completed (captured : Bool)
deriving DecidableEq, Repr

/-- Outbound messages sent by the loop (`notify` / `chrome.runtime.sendMessage`). -/
inductive OutEvent where
  | started (total : Nat)
  | progress (downloaded total failed : Nat) (candidateName : Option String)
  | downloadError (candidateName msg : String)
  | done (downloaded total failed : Nat)
  | stopped
deriving DecidableEq, Repr

/-- Final counters, emitted events in order, and the names whose loop body
was entered (the candidate was selected), in order. -/
structure RunResult where
  downloaded : Nat
  failed : Nat
  events : List OutEvent
  processed : List String
deriving DecidableEq, Repr

/-- Cooperative stop flag (content.js:916 sets it; content.js:685 checks it
at the top of each iteration).  `some j` means the flag is set from the
boundary before iteration `j` on; once set it stays set. -/
def stopCheck : Option Nat → Nat → Bool
  | none, _ => false
  | some j, i => decide (j ≤ i)

/-- One candidate's effect on the counters and the emitted events
(content.js:691-796): a thrown error is caught at the per-candidate
boundary and logged (failed++, DOWNLOAD_ERROR, PROGRESS); a missing Resume
or Download button is failed++ plus PROGRESS; reaching the end of the
download attempt is downloaded++ plus PROGRESS carrying the candidate
name — the code increments `downloaded` at line 783 regardless of whether
any capture strategy succeeded. -/
def processCandidate (name : String) (o : StepOutcome)
    (downloaded failed total : Nat) : Nat × Nat × List OutEvent :=
  match o with
  | .throws m => (downloaded, failed + 1,
      [.downloadError name m, .progress downloaded total (failed + 1) none])
  | .noResumeButton => (downloaded, failed + 1,
      [.progress downloaded total (failed + 1) none])
  | .noDownloadButton => (downloaded, failed + 1,
      [.progress downloaded total (failed + 1) none])
  | .completed _ => (downloaded + 1, failed,
      [.progress (downloaded + 1) total failed (some name)])

/-- The `for` loop of content.js:684-803 plus the final DONE /
DOWNLOAD_STOPPED notifications (content.js:805-807); the stop branch at
content.js:685 emits the same pair and returns. -/
def loopAux (total : Nat) (stopIdx : Option Nat) :
    List (String × StepOutcome) → Nat → Nat → Nat → RunResult
  | [], _, d, f => ⟨d, f, [.done d total f, .stopped], []⟩
  | (name, o) :: rest, i, d, f =>
    if stopCheck stopIdx i then ⟨d, f, [.done d total f, .stopped], []⟩
    else
      let s := processCandidate name o d f total
      let r := loopAux total stopIdx rest (i + 1) s.1 s.2.1
      ⟨r.downloaded, r.failed, s.2.2 ++ r.events, name :: r.processed⟩

/-- content.js:674-808 `startBulkDownload`: fixes `total` from the scanned
card list, emits DOWNLOAD_STARTED, runs the loop from zero counters. -/
def startBulkDownload (cands : List (String × StepOutcome))
    (stopIdx : Option Nat) : RunResult :=
  let r := loopAux cands.length stopIdx cands 0 0 0
  { r with events := .started cands.length :: r.events }

/-- Outcomes counted as failed by the loop. -/
def isFailOutcome : StepOutcome → Bool
  | .throws _ => true
  | .noResumeButton => true
  | .noDownloadButton => true
  | .completed _ => false

/-- Outcomes that reach the end of the download attempt. -/
def isCompletedOutcome : StepOutcome → Bool
  | .completed _ => true
  | _ => false

/-- Recogniser for the DONE terminal event. -/
def isDoneEvent : OutEvent → Bool
  | .done _ _ _ => true
  | _ => false

/-- Recogniser for the DOWNLOAD_STOPPED terminal event. -/
def isStoppedEvent : OutEvent → Bool
  | .stopped => true
  | _ => false

/-! ### Loop lemmas -/

theorem loop_none_processed (total : Nat) :
    ∀ (cs : List (String × StepOutcome)) (i d f : Nat),
      (loopAux total none cs i d f).processed = cs.map Prod.fst := by
  intro cs
  induction cs with
  | nil => intro i d f; rfl
  | cons c rest ih =>
    intro i d f
    obtain ⟨name, o⟩ := c
    simp [loopAux, stopCheck, ih]

theorem loop_none_failed (total : Nat) :
    ∀ (cs : List (String × StepOutcome)) (i d f : Nat),
      (loopAux total none cs i d f).failed
        = f + cs.countP (fun c => isFailOutcome c.2) := by
  intro cs
  induction cs with
  | nil => intro i d f; simp [loopAux]
  | cons c rest ih =>
    intro i d f
    obtain ⟨name, o⟩ := c
    cases o <;>
      simp [loopAux, stopCheck, processCandidate, ih, List.countP_cons,
        isFailOutcome] <;> omega

theorem loop_none_downloaded (total : Nat) :
    ∀ (cs : List (String × StepOutcome)) (i d f : Nat),
      (loopAux total none cs i d f).downloaded
        = d + cs.countP (fun c => isCompletedOutcome c.2) := by
  intro cs
  induction cs with
  | nil => intro i d f; simp [loopAux]
  | cons c rest ih =>
    intro i d f
    obtain ⟨name, o⟩ := c
    cases o <;>
      simp [loopAux, stopCheck, processCandidate, ih, List.countP_cons,
        isCompletedOutcome] <;> omega

theorem loop_none_error_mem (total : Nat) (name m : String) :
    ∀ (cs : List (String × StepOutcome)), (name, .throws m) ∈ cs →
      ∀ (i d f : Nat),
        OutEvent.downloadError name m ∈ (loopAux total none cs i d f).events := by
  intro cs
  induction cs with
  | nil => intro hmem; cases hmem
  | cons c rest ih =>
    intro hmem i d f
    obtain ⟨n2, o2⟩ := c
    rcases List.mem_cons.mp hmem with h | h
    · injection h with h1 h2
      subst h1
      subst h2
      simp [loopAux, stopCheck, processCandidate]
    · have hr := ih h (i + 1) (processCandidate n2 o2 d f total).1
        (processCandidate n2 o2 d f total).2.1
      simp [loopAux, stopCheck, List.mem_append]
      right
      exact hr

/-- C2: no exception thrown while processing one candidate aborts the
batch.  For any candidate list in which candidate `k` throws, the loop
(run with the stop flag never set) still enters the body for every
candidate, counts exactly the failing candidates in `failed` (so `failed`
gains at least one for candidate `k`), and emits the DOWNLOAD_ERROR event
for candidate `k`. -/
theorem orchestrator_error_isolation (cs : List (String × StepOutcome))
    (k : Nat) (m : String) (hk : k < cs.length)
    (hth : (cs.get ⟨k, hk⟩).2 = .throws m) :
    (startBulkDownload cs none).processed = cs.map Prod.fst ∧
    (startBulkDownload cs none).failed
      = cs.countP (fun c => isFailOutcome c.2) ∧
    1 ≤ (startBulkDownload cs none).failed ∧
    OutEvent.downloadError (cs.get ⟨k, hk⟩).1 m
      ∈ (startBulkDownload cs none).events := by
  have hmem : ((cs.get ⟨k, hk⟩).1, StepOutcome.throws m) ∈ cs := by
    have : ((cs.get ⟨k, hk⟩).1, (cs.get ⟨k, hk⟩).2) ∈ cs := by
      simpa using List.get_mem cs k hk
    rwa [hth] at this
  refine ⟨?_, ?_, ?_, ?_⟩
  · show (loopAux cs.length none cs 0 0 0).processed = cs.map Prod.fst
    exact loop_none_processed _ cs 0 0 0
  · show (loopAux cs.length none cs 0 0 0).failed = _
    simpa using loop_none_failed _ cs 0 0 0
  · show 1 ≤ (loopAux cs.length none cs 0 0 0).failed
    rw [loop_none_failed _ cs 0 0 0]
    have hpos : 0 < cs.countP (fun c => isFailOutcome c.2) :=
      List.countP_pos_iff.mpr ⟨_, hmem, by rfl⟩
    omega
  · show OutEvent.downloadError _ m ∈ OutEvent.started cs.length ::
      (loopAux cs.length none cs 0 0 0).events
    exact List.mem_cons_of_mem _ (loop_none_error_mem _ _ _ cs hmem 0 0 0)

/-- Witness for C2: a three-candidate batch whose middle candidate throws;
all three candidates are processed and the failure is counted. -/
theorem orchestrator_error_isolation_witness :
    (startBulkDownload
      [("A", .completed true), ("B", .throws "boom"), ("C", .noResumeButton)]
      none).processed = ["A", "B", "C"] ∧
    1 ≤ (startBulkDownload
      [("A", .completed true), ("B", .throws "boom"), ("C", .noResumeButton)]
      none).failed := by
  have h := orchestrator_error_isolation
    [("A", .completed true), ("B", .throws "boom"), ("C", .noResumeButton)]
    1 "boom" (by decide) (by rfl)
  exact ⟨h.1, h.2.2.1⟩

/-! ### Cancellation (C6) -/

theorem loop_stop_processed (total j : Nat) :
    ∀ (cs : List (String × StepOutcome)) (i d f : Nat),
      (loopAux total (some j) cs i d f).processed
        = (cs.take (j - i)).map Prod.fst := by
  intro cs
  induction cs with
  | nil => intro i d f; simp [loopAux]
  | cons c rest ih =>
    intro i d f
    obtain ⟨name, o⟩ := c
    by_cases hji : j ≤ i
    · have hz : j - i = 0 := by omega
      simp [loopAux, stopCheck, hji, hz]
    · have hs : j - i = (j - (i + 1)) + 1 := by omega
      simp [loopAux, stopCheck, hji, hs, ih]

theorem processCandidate_no_terminal (n : String) (o : StepOutcome)
    (d f total : Nat) :
    (processCandidate n o d f total).2.2.countP isDoneEvent = 0 ∧
    (processCandidate n o d f total).2.2.countP isStoppedEvent = 0 := by
  cases o <;> simp [processCandidate, List.countP_cons, isDoneEvent, isStoppedEvent]

theorem loop_done_count (total : Nat) (stopIdx : Option Nat) :
    ∀ (cs : List (String × StepOutcome)) (i d f : Nat),
      (loopAux total stopIdx cs i d f).events.countP isDoneEvent = 1 ∧
      (loopAux total stopIdx cs i d f).events.countP isStoppedEvent = 1 := by
  intro cs
  induction cs with
  | nil =>
    intro i d f
    simp [loopAux, List.countP_cons, isDoneEvent, isStoppedEvent]
  | cons c rest ih =>
    intro i d f
    obtain ⟨name, o⟩ := c
    by_cases hst : stopCheck stopIdx i = true
    · simp [loopAux, hst, List.countP_cons, isDoneEvent, isStoppedEvent]
    · have hnt := processCandidate_no_terminal name o d f total
      have ihr := ih (i + 1) (processCandidate name o d f total).1
        (processCandidate name o d f total).2.1
      simp [loopAux, hst, List.countP_append, hnt.1, hnt.2, ihr.1, ihr.2]

/-- C6: cancellation is cooperative and checked at the top of each
iteration.  If the stop flag becomes set at the boundary after the first
`j` candidates, exactly the first `j` candidates are ever selected; and in
every run — cancelled or completed — exactly one DONE and exactly one
DOWNLOAD_STOPPED terminal event are emitted. -/
theorem orchestrator_cancellation (cs : List (String × StepOutcome)) (j : Nat) :
    (startBulkDownload cs (some j)).processed = (cs.take j).map Prod.fst ∧
    (startBulkDownload cs (some j)).events.countP isDoneEvent = 1 ∧
    (startBulkDownload cs (some j)).events.countP isStoppedEvent = 1 ∧
    (startBulkDownload cs none).events.countP isDoneEvent = 1 ∧
    (startBulkDownload cs none).events.countP isStoppedEvent = 1 := by
  refine ⟨?_, ?_, ?_, ?_, ?_⟩
  · show (loopAux cs.length (some j) cs 0 0 0).processed = _
    simpa using loop_stop_processed cs.length j cs 0 0 0
  · show (OutEvent.started cs.length ::
      (loopAux cs.length (some j) cs 0 0 0).events).countP isDoneEvent = 1
    simp [List.countP_cons, isDoneEvent, (loop_done_count cs.length (some j) cs 0 0 0).1]
  · show (OutEvent.started cs.length ::
      (loopAux cs.length (some j) cs 0 0 0).events).countP isStoppedEvent = 1
    simp [List.countP_cons, isStoppedEvent, (loop_done_count cs.length (some j) cs 0 0 0).2]
  · show (OutEvent.started cs.length ::
      (loopAux cs.length none cs 0 0 0).events).countP isDoneEvent = 1
    simp [List.countP_cons, isDoneEvent, (loop_done_count cs.length none cs 0 0 0).1]
  · show (OutEvent.started cs.length ::
      (loopAux cs.length none cs 0 0 0).events).countP isStoppedEvent = 1
    simp [List.countP_cons, isStoppedEvent, (loop_done_count cs.length none cs 0 0 0).2]

/-! ### Downloaded counter semantics (C5) -/

/-- Counterexample to C5 as stated: a candidate whose download attempt ran
to the end with NO captured transfer (`captured = false`: nothing was
intercepted, the in-page fetch did not report success, the loop fell into
the content.js:778 last-resort branch) still increments `downloaded`
(content.js:783 runs unconditionally after the attempt) and still emits
the PROGRESS event carrying the name. -/
theorem downloaded_without_capture :
    (startBulkDownload [("Alice", .completed false)] none).downloaded = 1 ∧
    OutEvent.progress 1 1 0 (some "Alice")
      ∈ (startBulkDownload [("Alice", .completed false)] none).events := by
  constructor
  · rfl
  · decide

theorem loop_none_progress_mem (total : Nat) (name : String) (c : Bool) :
    ∀ (cs : List (String × StepOutcome)), (name, .completed c) ∈ cs →
      ∀ (i d f : Nat), ∃ d2 f2,
        OutEvent.progress d2 total f2 (some name)
          ∈ (loopAux total none cs i d f).events := by
  intro cs
  induction cs with
  | nil => intro hmem; cases hmem
  | cons p rest ih =>
    intro hmem i d f
    obtain ⟨n2, o2⟩ := p
    rcases List.mem_cons.mp hmem with h | h
    · injection h with h1 h2
      subst h1
      subst h2
      refine ⟨d + 1, f, ?_⟩
      simp [loopAux, stopCheck, processCandidate]
    · obtain ⟨d2, f2, hr⟩ := ih h (i + 1) (processCandidate n2 o2 d f total).1
        (processCandidate n2 o2 d f total).2.1
      refine ⟨d2, f2, ?_⟩
      simp [loopAux, stopCheck, List.mem_append]
      right
      exact hr

/-- C5 amended: the `downloaded` counter counts exactly the candidates
whose processing reached the end of the download attempt (both triggers
found and no exception), REGARDLESS of whether any transfer was captured
for them — content.js:783 increments unconditionally, so a candidate with
no captured transfer still increases the count.  Each such candidate also
gets a PROGRESS event carrying its name. -/
theorem downloaded_counts_completed_attempts
    (cs : List (String × StepOutcome)) (name : String) (c : Bool)
    (hmem : (name, .completed c) ∈ cs) :
    (startBulkDownload cs none).downloaded
      = cs.countP (fun p => isCompletedOutcome p.2) ∧
    ∃ d2 f2, OutEvent.progress d2 cs.length f2 (some name)
      ∈ (startBulkDownload cs none).events := by
  constructor
  · show (loopAux cs.length none cs 0 0 0).downloaded = _
    simpa using loop_none_downloaded cs.length cs 0 0 0
  · obtain ⟨d2, f2, hr⟩ := loop_none_progress_mem cs.length name c cs hmem 0 0 0
    exact ⟨d2, f2, List.mem_cons_of_mem _ hr⟩

/-- Witness for the amended C5: one captured and one uncaptured completed
attempt, one failure; `downloaded` is 2. -/
theorem downloaded_counts_completed_attempts_witness :
    (startBulkDownload
      [("A", .completed true), ("B", .completed false), ("C", .noDownloadButton)]
      none).downloaded = 2 ∧
    ∃ d2 f2, OutEvent.progress d2 3 f2 (some "B")
      ∈ (startBulkDownload
        [("A", .completed true), ("B", .completed false), ("C", .noDownloadButton)]
        none).events := by
  have h := downloaded_counts_completed_attempts
    [("A", .completed true), ("B", .completed false), ("C", .noDownloadButton)]
    "B" false (by decide)
  exact ⟨h.1, h.2⟩

/-! ### Counter invariants over the event stream (C10) -/

/-- The (downloaded, failed) pair carried by an event, when it carries one. -/
def evCounters : OutEvent → Option (Nat × Nat)
  | .progress d _ f _ => some (d, f)
  | .done d _ f => some (d, f)
  | _ => none

/-- Componentwise order on (downloaded, failed) pairs. -/
def counterLe (a b : Nat × Nat) : Prop := a.1 ≤ b.1 ∧ a.2 ≤ b.2

/-- The `total` field carried by an event, if any, equals the run total. -/
def evTotalOk (total : Nat) : OutEvent → Bool
  | .progress _ t _ _ => t == total
  | .done _ t _ => t == total
  | .started t => t == total
  | _ => true

theorem processCandidate_spec (n : String) (o : StepOutcome)
    (d f total : Nat) :
    d ≤ (processCandidate n o d f total).1 ∧
    f ≤ (processCandidate n o d f total).2.1 ∧
    (processCandidate n o d f total).1 + (processCandidate n o d f total).2.1
      = d + f + 1 ∧
    (processCandidate n o d f total).2.2.filterMap evCounters
      = [((processCandidate n o d f total).1, (processCandidate n o d f total).2.1)] ∧
    (processCandidate n o d f total).2.2.all (evTotalOk total) = true := by
  cases o <;>
    simp [processCandidate, evCounters, evTotalOk, List.filterMap] <;> omega

theorem loop_counter_invariants (total : Nat) (stopIdx : Option Nat) :
    ∀ (cs : List (String × StepOutcome)) (i d f : Nat),
      d + f + cs.length ≤ total →
      List.Chain' counterLe
        ((d, f) :: (loopAux total stopIdx cs i d f).events.filterMap evCounters) ∧
      ((loopAux total stopIdx cs i d f).events.filterMap evCounters).all
        (fun p => decide (p.1 + p.2 ≤ total)) = true ∧
      (loopAux total stopIdx cs i d f).events.all (evTotalOk total) = true := by
  intro cs
  induction cs with
  | nil =>
    intro i d f hb
    simp only [List.length_nil, Nat.add_zero] at hb
    refine ⟨?_, ?_, ?_⟩
    · simp [loopAux, evCounters, List.filterMap, counterLe]
    · simp [loopAux, evCounters, List.filterMap, hb]
    · simp [loopAux, evTotalOk]
  | cons c rest ih =>
    intro i d f hb
    obtain ⟨name, o⟩ := c
    by_cases hst : stopCheck stopIdx i = true
    · have hb2 : d + f ≤ total := by
        simp [List.length_cons] at hb; omega
      refine ⟨?_, ?_, ?_⟩
      · simp [loopAux, hst, evCounters, List.filterMap, counterLe]
      · simp [loopAux, hst, evCounters, List.filterMap, hb2]
      · simp [loopAux, hst, evTotalOk]
    · obtain ⟨hd, hf, hsum, hfm, hall⟩ := processCandidate_spec name o d f total
      have hb2 : (processCandidate name o d f total).1
          + (processCandidate name o d f total).2.1 + rest.length ≤ total := by
        simp [List.length_cons] at hb; omega
      obtain ⟨ihc, ihb, iht⟩ := ih (i + 1) (processCandidate name o d f total).1
        (processCandidate name o d f total).2.1 hb2
      refine ⟨?_, ?_, ?_⟩
      · simp only [loopAux, hst, if_false, Bool.false_eq_true, List.filterMap_append, hfm]
        rw [List.singleton_append, List.chain'_cons]
        exact ⟨⟨hd, hf⟩, ihc⟩
      · simp only [loopAux, hst, if_false, Bool.false_eq_true, List.filterMap_append,
          List.all_append, hfm]
        have hle : (processCandidate name o d f total).1
            + (processCandidate name o d f total).2.1 ≤ total := by omega
        simp [hle, ihb]
      · simp only [loopAux, hst, if_false, Bool.false_eq_true, List.all_append]
        simp [hall, iht]

/-- C10: throughout a single bulk run (for any candidate list and any
cooperative-stop schedule), the (downloaded, failed) counters carried by
the emitted PROGRESS and DONE events are non-decreasing starting from
(0, 0), every carried pair satisfies downloaded + failed ≤ total, and
every event that carries a total carries the candidate count fixed at the
start of the run. -/
theorem orchestrator_counter_invariants (cs : List (String × StepOutcome))
    (stopIdx : Option Nat) :
    List.Chain' counterLe
      ((0, 0) :: (startBulkDownload cs stopIdx).events.filterMap evCounters) ∧
    ((startBulkDownload cs stopIdx).events.filterMap evCounters).all
      (fun p => decide (p.1 + p.2 ≤ cs.length)) = true ∧
    (startBulkDownload cs stopIdx).events.all (evTotalOk cs.length) = true := by
  obtain ⟨hc, hbnd, htot⟩ :=
    loop_counter_invariants cs.length stopIdx cs 0 0 0 (by omega)
  refine ⟨?_, ?_, ?_⟩
  · show List.Chain' counterLe ((0, 0) :: (OutEvent.started cs.length ::
      (loopAux cs.length stopIdx cs 0 0 0).events).filterMap evCounters)
    simpa [evCounters] using hc
  · show ((OutEvent.started cs.length ::
      (loopAux cs.length stopIdx cs 0 0 0).events).filterMap evCounters).all _ = true
    simpa [evCounters] using hbnd
  · show (OutEvent.started cs.length ::
      (loopAux cs.length stopIdx cs 0 0 0).events).all (evTotalOk cs.length) = true
    simp [evTotalOk, htot]

/-! ## Background download queue (background.js:6-59)

`enqueueDownload` pushes onto `downloadQueue` and starts `processQueue`
only when `isProcessingQueue` is false; `processQueue` sets the flag,
repeatedly shifts the head, calls `triggerDownload` (synchronously at the
shift), awaits it, sleeps 500 ms, and clears the flag when the queue is
empty.  JavaScript is single threaded, so each segment between awaits is
atomic; the system is a labelled transition system whose events are those
segments: an enqueue arriving, the awaited download settling (resolving or
rejecting — both paths fall through to the sleep), and the 500 ms sleep
timer firing (at or after 500 ms).  Transfers are abstracted to `Nat`
identifiers and time to a `Nat` clock. -/

/-- Phase of a running `processQueue` worker between suspension points. -/
inductive WPhase where
  | downloading (id : Nat)
  | sleeping (since : Nat)
deriving DecidableEq, Repr

/-- Background context state: the module-level `downloadQueue` and
`isProcessingQueue`, the set of live `processQueue` invocations, the
history of `triggerDownload` calls `(id, time)` in call order, the ghost
history of enqueued ids in arrival order, and the clock. -/
structure QState where
  queue : List Nat
  isProcessingQueue : Bool
  workers : List WPhase
  calls : List (Nat × Nat)
  enqueued : List Nat
  now : Nat
deriving DecidableEq, Repr

/-- Initial background state (background.js:7-8). -/
def initQ : QState := ⟨[], false, [], [], [], 0⟩

/-- Events: an enqueue request at time `t`; worker `w`'s awaited download
settling at `t`; worker `w`'s `sleep(500)` timer firing at `t`. -/
inductive QEvent where
  | enq (id t : Nat)
  | dlSettled (w t : Nat)
  | sleepDone (w t : Nat)
deriving DecidableEq, Repr

/-- A worker phase with a transfer in flight. -/
def isDownloading : WPhase → Bool
  | .downloading _ => true
  | .sleeping _ => false

/-- One atomic segment.  `enq`: push, and if the flag is clear run
`processQueue` synchronously up to its first await (set flag, shift head,
call `triggerDownload`).  `dlSettled`: the catch-or-resolve falls into
`sleep(500)`.  `sleepDone` (legal only at `since + 500` or later): re-test
the loop condition — shift and call `triggerDownload` again, or exit and
clear the flag.  `none` marks an event that cannot occur in the state. -/
def step (s : QState) (e : QEvent) : Option QState :=
  match e with
  | .enq id t =>
    if t < s.now then none
    else if s.isProcessingQueue then
      some
        { s with
          queue := s.queue ++ [id],
          enqueued := s.enqueued ++ [id],
          now := t }
    else
      match s.queue ++ [id] with
      | [] => none
      | h :: rest =>
        some
          { queue := rest,
            isProcessingQueue := true,
            workers := s.workers ++ [.downloading h],
            calls := s.calls ++ [(h, t)],
            enqueued := s.enqueued ++ [id],
            now := t }
  | .dlSettled w t =>
    if t < s.now then none
    else
      match s.workers.get? w with
      | some (.downloading _) =>
        some { s with workers := s.workers.set w (.sleeping t), now := t }
      | _ => none
  | .sleepDone w t =>
    if t < s.now then none
    else
      match s.workers.get? w with
      | some (.sleeping t0) =>
        if t < t0 + 500 then none
        else
          match s.queue with
          | [] =>
            some
              { s with
                workers := s.workers.eraseIdx w,
                isProcessingQueue := false,
                now := t }
          | h :: rest =>
            some
              { s with
                queue := rest,
                workers := s.workers.set w (.downloading h),
                calls := s.calls ++ [(h, t)],
                now := t }
      | _ => none

/-- Run a sequence of events from a state; `none` if any event is illegal. -/
def runQ : QState → List QEvent → Option QState
  | s, [] => some s
  | s, e :: es =>
    match step s e with
    | some s2 => runQ s2 es
    | none => none

/-- Start time of the most recent `triggerDownload` call. -/
def lastCallTime (s : QState) : Option Nat := (s.calls.map Prod.snd).getLast?

/-- Reachability invariant of the queue system. -/
def QInv (s : QState) : Prop :=
  s.workers.length ≤ 1 ∧
  (s.isProcessingQueue = true ↔ s.workers ≠ []) ∧
  (s.isProcessingQueue = false → s.queue = []) ∧
  s.enqueued = s.calls.map Prod.fst ++ s.queue ∧
  List.Chain' (fun a b => a + 500 ≤ b) (s.calls.map Prod.snd) ∧
  (s.workers = [] → ∀ tc, lastCallTime s = some tc → tc + 500 ≤ s.now) ∧
  (∀ id, s.workers = [WPhase.downloading id] →
    ∃ tc, lastCallTime s = some tc ∧ tc ≤ s.now) ∧
  (∀ t0, s.workers = [WPhase.sleeping t0] →
    (∃ tc, lastCallTime s = some tc ∧ tc ≤ t0) ∧ t0 ≤ s.now)

theorem QInv_init : QInv initQ := by
  refine ⟨by simp [initQ], by simp [initQ], by simp [initQ], by simp [initQ],
    by simp [initQ], ?_, ?_, ?_⟩
  · intro _ tc h
    simp [initQ, lastCallTime] at h
  · intro id h
    simp [initQ] at h
  · intro t0 h
    simp [initQ] at h

theorem chain_gap_snoc {l : List Nat} {a : Nat}
    (hc : List.Chain' (fun x y => x + 500 ≤ y) l)
    (ha : ∀ tc, l.getLast? = some tc → tc + 500 ≤ a) :
    List.Chain' (fun x y => x + 500 ≤ y) (l ++ [a]) := by
  rw [List.chain'_append]
  refine ⟨hc, List.chain'_singleton a, ?_⟩
  intro x hx y hy
  simp only [List.head?_cons, Option.mem_def, Option.some.injEq] at hy
  subst hy
  exact ha x hx

theorem step_preserves_QInv {s s2 : QState} {e : QEvent}
    (hstep : step s e = some s2) (hinv : QInv s) : QInv s2 := by
  obtain ⟨hlen, hpw, hpq, henq, hchain, hidle, hdl, hsl⟩ := hinv
  cases e with
  | enq id t =>
    simp only [step] at hstep
    split at hstep
    · simp at hstep
    case isFalse hts =>
      have hnow : s.now ≤ t := Nat.le_of_not_lt hts
      split at hstep
      case isTrue hproc =>
        injection hstep with h2
        subst h2
        refine ⟨hlen, hpw, ?_, ?_, hchain, ?_, ?_, ?_⟩
        · intro h
          simp only at h
          rw [hproc] at h
          cases h
        · show s.enqueued ++ [id] = s.calls.map Prod.fst ++ (s.queue ++ [id])
          rw [henq, List.append_assoc]
        · intro hw
          exact absurd hw (hpw.mp hproc)
        · intro i hw
          obtain ⟨tc, h1, h2⟩ := hdl i hw
          exact ⟨tc, h1, le_trans h2 hnow⟩
        · intro t0 hw
          obtain ⟨h1, h2⟩ := hsl t0 hw
          exact ⟨h1, le_trans h2 hnow⟩
      case isFalse hproc =>
        have hpf : s.isProcessingQueue = false := by
          revert hproc; cases s.isProcessingQueue <;> simp
        have hq0 : s.queue = [] := hpq hpf
        have hw0 : s.workers = [] := by
          by_contra hne
          rw [hpw.mpr hne] at hpf
          cases hpf
        split at hstep
        case h_1 habs => simp at habs
        case h_2 hd rest heq =>
          rw [hq0] at heq
          simp only [List.nil_append, List.cons.injEq] at heq
          obtain ⟨hh, hrest⟩ := heq
          subst hh
          subst hrest
          injection hstep with h2
          subst h2
          refine ⟨?_, ?_, ?_, ?_, ?_, ?_, ?_, ?_⟩
          · simp [hw0]
          · simp [hw0]
          · intro h
            cases h
          · show s.enqueued ++ [id] = (s.calls ++ [(id, t)]).map Prod.fst ++ []
            rw [henq, hq0]
            simp
          · show List.Chain' _ ((s.calls ++ [(id, t)]).map Prod.snd)
            rw [List.map_append]
            exact chain_gap_snoc hchain
              (fun tc hl => le_trans (hidle hw0 tc hl) hnow)
          · intro hw
            simp [hw0] at hw
          · intro i hwi
            rw [hw0] at hwi
            simp only [List.nil_append, List.cons.injEq, WPhase.downloading.injEq] at hwi
            refine ⟨t, ?_, le_refl t⟩
            show ((s.calls ++ [(id, t)]).map Prod.snd).getLast? = some t
            rw [List.map_append]
            exact List.getLast?_concat _
          · intro t0 hwt
            rw [hw0] at hwt
            simp at hwt
  | dlSettled w t =>
    simp only [step] at hstep
    split at hstep
    · simp at hstep
    case isFalse hts =>
      have hnow : s.now ≤ t := Nat.le_of_not_lt hts
      split at hstep
      case h_1 id heq =>
        have hwlt : w < s.workers.length := by
          by_contra hge
          rw [List.get?_eq_none.mpr (Nat.le_of_not_lt hge)] at heq
          cases heq
        obtain ⟨x, hx⟩ := List.length_eq_one.mp
          (show s.workers.length = 1 by omega)
        have hwz : w = 0 := by
          rw [hx] at hwlt
          simp at hwlt
          omega
        subst hwz
        rw [hx] at heq
        simp only [List.get?] at heq
        injection heq with heq2
        subst heq2
        injection hstep with h2
        subst h2
        have hptrue : s.isProcessingQueue = true := hpw.mpr (by simp [hx])
        obtain ⟨tc, hlast, htcnow⟩ := hdl id hx
        refine ⟨?_, ?_, ?_, henq, hchain, ?_, ?_, ?_⟩
        · simp [List.length_set]
          omega
        · rw [hptrue]
          simp [hx]
        · intro hfq
          rw [hptrue] at hfq
          cases hfq
        · intro hwe
          simp [hx] at hwe
        · intro i hwi
          rw [hx] at hwi
          simp at hwi
        · intro t0 hwt
          rw [hx] at hwt
          simp only [List.set] at hwt
          injection hwt with hwt2
          injection hwt2 with hwt3
          subst hwt3
          exact ⟨⟨tc, hlast, le_trans htcnow hnow⟩, le_refl t⟩
      case h_2 hne =>
        simp at hstep
  | sleepDone w t =>
    simp only [step] at hstep
    split at hstep
    · simp at hstep
    case isFalse hts =>
      have hnow : s.now ≤ t := Nat.le_of_not_lt hts
      split at hstep
      case h_1 t0 heq =>
        have hwlt : w < s.workers.length := by
          by_contra hge
          rw [List.get?_eq_none.mpr (Nat.le_of_not_lt hge)] at heq
          cases heq
        obtain ⟨x, hx⟩ := List.length_eq_one.mp
          (show s.workers.length = 1 by omega)
        have hwz : w = 0 := by
          rw [hx] at hwlt
          simp at hwlt
          omega
        subst hwz
        rw [hx] at heq
        simp only [List.get?] at heq
        injection heq with heq2
        subst heq2
        have hptrue : s.isProcessingQueue = true := hpw.mpr (by simp [hx])
        obtain ⟨⟨tc, hlast, htct0⟩, ht0now⟩ := hsl t0 hx
        split at hstep
        · simp at hstep
        case isFalse ht5 =>
          have ht5b : t0 + 500 ≤ t := Nat.le_of_not_lt ht5
          split at hstep
          case h_1 hq =>
            injection hstep with h2
            subst h2
            refine ⟨?_, ?_, ?_, ?_, hchain, ?_, ?_, ?_⟩
            · simp [hx, List.eraseIdx]
            · simp [hx, List.eraseIdx]
            · intro _
              exact hq
            · rw [henq, hq]
            · intro _ tc2 hl2
              simp only [lastCallTime] at hlast hl2
              rw [hlast] at hl2
              injection hl2 with hl3
              subst hl3
              show tc + 500 ≤ t
              omega
            · intro i hwi
              simp [hx, List.eraseIdx] at hwi
            · intro z hwz
              simp [hx, List.eraseIdx] at hwz
          case h_2 h rest hq =>
            injection hstep with h2
            subst h2
            refine ⟨?_, ?_, ?_, ?_, ?_, ?_, ?_, ?_⟩
            · simp [List.length_set]
              omega
            · rw [hptrue]
              simp [hx]
            · intro hfq
              rw [hptrue] at hfq
              cases hfq
            · show s.enqueued = (s.calls ++ [(h, t)]).map Prod.fst ++ rest
              rw [henq, hq]
              simp
            · show List.Chain' _ ((s.calls ++ [(h, t)]).map Prod.snd)
              rw [List.map_append]
              refine chain_gap_snoc hchain (fun tc2 hl2 => ?_)
              simp only [lastCallTime] at hlast
              rw [hlast] at hl2
              injection hl2 with hl3
              subst hl3
              omega
            · intro hwe
              simp [hx] at hwe
            · intro i hwi
              rw [hx] at hwi
              simp only [List.set] at hwi
              injection hwi with hwi2
              injection hwi2 with hwi3
              refine ⟨t, ?_, le_refl t⟩
              show ((s.calls ++ [(h, t)]).map Prod.snd).getLast? = some t
              rw [List.map_append]
              exact List.getLast?_concat _
            · intro z hwz
              rw [hx] at hwz
              simp [List.set] at hwz
      case h_2 hne =>
        simp at hstep

theorem runQ_preserves_QInv :
    ∀ (evts : List QEvent) (s0 s : QState),
      QInv s0 → runQ s0 evts = some s → QInv s := by
  intro evts
  induction evts with
  | nil =>
    intro s0 s h0 hrun
    injection hrun with h2
    subst h2
    exact h0
  | cons e es ih =>
    intro s0 s h0 hrun
    simp only [runQ] at hrun
    split at hrun
    case h_1 s1 hs1 => exact ih s1 s (step_preserves_QInv hs1 h0) hrun
    case h_2 => cases hrun

/-- C3: in every reachable state of the background queue system, (a) at
most one `processQueue` worker exists, so at most one transfer is in
flight and no two transfers overlap; (b) the `triggerDownload` calls made
so far are exactly the enqueued transfers in enqueue order minus the still
queued tail (strict FIFO), and once the worker has terminated the call
list equals the whole enqueue list — n enqueues yield exactly n calls in
order; (c) consecutive `triggerDownload` call times are at least 500 ms
apart; (d) a `sleep` expiry finding the queue empty removes the worker and
clears `isProcessingQueue` (self-termination); and (e) an enqueue arriving
with the flag clear immediately starts a single worker and issues the next
`triggerDownload` call (restart). -/
theorem queue_fifo_serial (evts : List QEvent) (s : QState)
    (hrun : runQ initQ evts = some s) :
    s.workers.length ≤ 1 ∧
    (s.workers.filter isDownloading).length ≤ 1 ∧
    s.enqueued = s.calls.map Prod.fst ++ s.queue ∧
    (s.workers = [] → s.calls.map Prod.fst = s.enqueued) ∧
    List.Chain' (fun a b => a + 500 ≤ b) (s.calls.map Prod.snd) ∧
    (∀ w t s2, step s (.sleepDone w t) = some s2 → s.queue = [] →
      s2.workers = [] ∧ s2.isProcessingQueue = false) ∧
    (∀ id t s2, s.isProcessingQueue = false → step s (.enq id t) = some s2 →
      s2.workers = [.downloading id] ∧ s2.calls = s.calls ++ [(id, t)]) := by
  have hinv := runQ_preserves_QInv evts initQ s QInv_init hrun
  obtain ⟨hlen, hpw, hpq, henq, hchain, hidle, hdl, hsl⟩ := hinv
  refine ⟨hlen, ?_, henq, ?_, hchain, ?_, ?_⟩
  · exact le_trans (List.length_filter_le _ _) hlen
  · intro hw
    have hpf : s.isProcessingQueue = false := by
      cases hp : s.isProcessingQueue
      · rfl
      · exact absurd hw (hpw.mp hp)
    rw [henq, hpq hpf]
    simp
  · intro w t s2 hstep hq
    simp only [step] at hstep
    split at hstep
    · simp at hstep
    case isFalse hts =>
      split at hstep
      case h_1 t0 heq =>
        have hwlt : w < s.workers.length := by
          by_contra hge
          rw [List.get?_eq_none.mpr (Nat.le_of_not_lt hge)] at heq
          cases heq
        obtain ⟨x, hx⟩ := List.length_eq_one.mp
          (show s.workers.length = 1 by omega)
        have hwz : w = 0 := by
          rw [hx] at hwlt
          simp at hwlt
          omega
        subst hwz
        split at hstep
        · simp at hstep
        case isFalse ht5 =>
          split at hstep
          case h_1 hq2 =>
            injection hstep with h2
            subst h2
            constructor
            · show s.workers.eraseIdx 0 = []
              rw [hx]
              rfl
            · rfl
          case h_2 hd rest hq2 =>
            rw [hq] at hq2
            cases hq2
      case h_2 => simp at hstep
  · intro id t s2 hpf hstep
    have hw0 : s.workers = [] := by
      by_contra hne
      rw [hpw.mpr hne] at hpf
      cases hpf
    have hq0 : s.queue = [] := hpq hpf
    simp only [step] at hstep
    split at hstep
    · simp at hstep
    case isFalse hts =>
      rw [hpf, hq0] at hstep
      simp only [Bool.false_eq_true, if_false, List.nil_append] at hstep
      injection hstep with h2
      subst h2
      constructor
      · show s.workers ++ [WPhase.downloading id] = [WPhase.downloading id]
        rw [hw0]
        rfl
      · rfl

/-- Witness for C3: two transfers enqueued 10 ms apart; the first starts
immediately, the second only after the first settles plus the 500 ms gap;
the worker then terminates.  The final state has both calls in enqueue
order with call times 0 and 520. -/
theorem queue_fifo_serial_witness :
    ∃ s : QState,
      runQ initQ
        [.enq 1 0, .enq 2 10, .dlSettled 0 20, .sleepDone 0 520,
         .dlSettled 0 530, .sleepDone 0 1030] = some s ∧
      s.workers = [] ∧
      s.calls.map Prod.fst = s.enqueued ∧
      List.Chain' (fun a b => a + 500 ≤ b) (s.calls.map Prod.snd) := by
  have h := queue_fifo_serial
    [.enq 1 0, .enq 2 10, .dlSettled 0 20, .sleepDone 0 520,
     .dlSettled 0 530, .sleepDone 0 1030]
    ⟨[], false, [], [(1, 0), (2, 520)], [1, 2], 1030⟩ (by decide)
  exact ⟨_, by decide, rfl, h.2.2.2.1 rfl, h.2.2.2.2.1⟩

/-! ## Interception state (content.js:528-601)

`interceptedUrl` and `mainWorldDownloaded` are module-level variables
written by `onInterceptMessage`, reset by `startWindowOpenIntercept` at
the start of each candidate's download attempt, and read-and-cleared by
`checkInterceptResult`. -/

/-- The pair of content.js:528-529 module variables. -/
structure InterceptState where
  interceptedUrl : Option String
  mainWorldDownloaded : Bool
deriving DecidableEq, Repr

/-- A `window.postMessage` payload from the injected page script: the three
flag fields tested by `onInterceptMessage` (content.js:580-593). -/
structure PageMsg where
  intercepted : Option String
  downloadDone : Bool
  downloadFailed : Option String
deriving DecidableEq, Repr

/-- content.js:532-534 `startWindowOpenIntercept`: both variables are reset
before the candidate's download attempt (the injected script and listener
registration have no effect on this state). -/
def startWindowOpenIntercept (_candidateName : String)
    (_s : InterceptState) : InterceptState :=
  ⟨none, false⟩

/-- content.js:580-593 `onInterceptMessage`: an intercepted message stores
the URL; a download-done message sets the flag; a failure only logs. -/
def onInterceptMessage (s : InterceptState) (m : PageMsg) : InterceptState :=
  let s1 := match m.intercepted with
    | some u => { s with interceptedUrl := some u }
    | none => s
  if m.downloadDone then { s1 with mainWorldDownloaded := true } else s1

/-- content.js:596-601 `checkInterceptResult`: return the captured values
and clear both variables. -/
def checkInterceptResult (s : InterceptState) :
    (Option String × Bool) × InterceptState :=
  ((s.interceptedUrl, s.mainWorldDownloaded), ⟨none, false⟩)

/-- C8: the interception state is reset to empty by
`startWindowOpenIntercept` before each candidate's download attempt, and
`checkInterceptResult` is an at-most-once read: it returns the currently
captured values and clears them, so a second read before any new capture
returns `(none, false)`.  A value captured by `onInterceptMessage` is
delivered by exactly the first subsequent read. -/
theorem intercept_state_at_most_once (s : InterceptState)
    (name u : String) :
    startWindowOpenIntercept name s = ⟨none, false⟩ ∧
    (checkInterceptResult s).1 = (s.interceptedUrl, s.mainWorldDownloaded) ∧
    (checkInterceptResult (checkInterceptResult s).2).1 = (none, false) ∧
    (checkInterceptResult
      (onInterceptMessage (startWindowOpenIntercept name s)
        ⟨some u, false, none⟩)).1 = (some u, false) ∧
    (checkInterceptResult
      (checkInterceptResult
        (onInterceptMessage (startWindowOpenIntercept name s)
          ⟨some u, false, none⟩)).2).1 = (none, false) := by
  exact ⟨rfl, rfl, rfl, rfl, rfl⟩

/-! ## DOM model and applicant-card scan (content.js:125-317)

The document is a tree of element and text nodes.  An element is
identified by its path (the indices among ALL child nodes from the root,
which models `document.body`); `a.contains(b)` is path-prefix.  The
selector queries used by `scanApplicantCards` / `extractNameFromCard`
(attribute presence, attribute substring, tag, role) are implemented as
predicates over nodes, applied in document (preorder) order as
`querySelectorAll` does. -/

inductive Dom where
  | elem (tag : String) (attrs : List (String × String)) (children : List Dom)
  | text (s : String)

/-- Substring test on character lists (JS `String.prototype.includes`). -/
def hasInfixL (sub : List Char) : List Char → Bool
  | [] => sub.isEmpty
  | c :: rest => sub.isPrefixOf (c :: rest) || hasInfixL sub rest

/-- JS `includes`. -/
def containsStr (s sub : String) : Bool := hasInfixL sub.data s.data

/-- ASCII-adequate model of JS `toLowerCase`. -/
def toLowerStr (s : String) : String := String.mk (s.data.map Char.toLower)

/-- JS `trim` on a string. -/
def trimStr (s : String) : String := String.mk (trimChars s.data)

/-- JS `String.prototype.split` on a character class, keeping empties. -/
def splitCharList (p : Char → Bool) : List Char → List (List Char)
  | [] => [[]]
  | c :: rest =>
    let r := splitCharList p rest
    if p c then [] :: r
    else
      match r with
      | [] => [[c]]
      | h :: tl => (c :: h) :: tl

/-- Attribute lookup. -/
def getAttr (attrs : List (String × String)) (name : String) : Option String :=
  (attrs.find? (fun kv => kv.1 == name)).map Prod.snd

/-- Tag of a node (empty for text nodes). -/
def tagOf : Dom → String
  | .elem t _ _ => t
  | .text _ => ""

/-- Attributes of a node. -/
def attrsOf : Dom → List (String × String)
  | .elem _ a _ => a
  | .text _ => []

/-- `textContent`: concatenated text of all descendant text nodes. -/
def textContentD : Dom → String
  | .text s => s
  | .elem _ _ cs => go cs
where go : List Dom → String
  | [] => ""
  | c :: cs => textContentD c ++ go cs

/-- All element nodes of a subtree rooted at path `p`, with their paths, in
document (preorder) order; the subtree root itself comes first. -/
def elemsD : Dom → List Nat → List (List Nat × Dom)
  | .text _, _ => []
  | .elem t a cs, p => (p, .elem t a cs) :: go cs p 0
where go : List Dom → List Nat → Nat → List (List Nat × Dom)
  | [], _, _ => []
  | c :: cs, p, i => elemsD c (p ++ [i]) ++ go cs p (i + 1)

/-- All text nodes of the subtree with their parent element paths, in
document order (the `TreeWalker` with `SHOW_TEXT`). -/
def textNodesD : Dom → List Nat → List (List Nat × String)
  | .text _, _ => []
  | .elem _ _ cs, p => go cs p 0
where go : List Dom → List Nat → Nat → List (List Nat × String)
  | [], _, _ => []
  | .text s :: cs, p, i => (p, s) :: go cs p (i + 1)
  | .elem t a cs2 :: cs, p, i =>
    textNodesD (.elem t a cs2) (p ++ [i]) ++ go cs p (i + 1)

/-- Element children with their child-node indices (DOM `.children`, but
keeping the index among all child nodes for path building). -/
def childElemsIdx (cs : List Dom) : List (Nat × Dom) := go cs 0
where go : List Dom → Nat → List (Nat × Dom)
  | [], _ => []
  | .elem t a cs2 :: rest, i => (i, .elem t a cs2) :: go rest (i + 1)
  | .text _ :: rest, i => go rest (i + 1)

/-- All child nodes of a node. -/
def childNodesOf : Dom → List Dom
  | .elem _ _ cs => cs
  | .text _ => []

/-- DOM `.children` of a node. -/
def childElems : Dom → List Dom
  | .elem _ _ cs => (childElemsIdx cs).map Prod.snd
  | .text _ => []

/-- First child node (`childNodes[0]`). -/
def firstChildNode : Dom → Option Dom
  | .elem _ _ (c :: _) => some c
  | _ => none

/-- Strict descendants with paths (what `querySelectorAll` on an element
searches). -/
def descendantsD (d : Dom) (p : List Nat) : List (List Nat × Dom) :=
  (elemsD d p).drop 1

/-- `querySelector` on an element: first strict descendant satisfying the
selector predicate, in document order. -/
def querySelectorD (d : Dom) (pred : Dom → Bool) : Option Dom :=
  ((descendantsD d []).map Prod.snd).find? pred

/-- Node lookup by path. -/
def getNodeAt : Dom → List Nat → Option Dom
  | d, [] => some d
  | d, i :: rest =>
    match d with
    | .elem _ _ cs =>
      match cs.get? i with
      | some c => getNodeAt c rest
      | none => none
    | .text _ => none

/-- `parentElement` of the node at a path (`none` at the root). -/
def parentPath : List Nat → Option (List Nat)
  | [] => none
  | p => some p.dropLast

/-- Fuel-driven worker for `closest`. -/
def closestAux (doc : Dom) (pred : Dom → Bool) : Nat → List Nat → Option (List Nat)
  | fuel, p =>
    match getNodeAt doc p with
    | none => none
    | some n =>
      if pred n then some p
      else
        match fuel, p with
        | _, [] => none
        | 0, _ => none
        | fuel2 + 1, _ => closestAux doc pred fuel2 p.dropLast

/-- DOM `closest`: the nearest ancestor-or-self satisfying the selector. -/
def closestD (doc : Dom) (pred : Dom → Bool) (p : List Nat) : Option (List Nat) :=
  closestAux doc pred p.length p

/-- `parent.parentElement` applied `n` times, stopping at the root. -/
def upN : Nat → List Nat → Option (List Nat)
  | 0, p => some p
  | n + 1, p =>
    match parentPath p with
    | some q => upN n q
    | none => none

/-- DOM `a.contains(b)` for two nodes of the same tree: ancestor-or-self. -/
def pathContains (a b : List Nat) : Bool := a.isPrefixOf b

/-- The scan's accumulating `found` map: insertion-ordered keys (paths)
with extracted names, like the JS `Map`. -/
abbrev Found := List (List Nat × String)

/-- JS `found.has(el)`. -/
def hasKey (f : Found) (p : List Nat) : Bool := f.any (fun kv => kv.1 == p)

/-! ### Name extraction (content.js:288-317) -/

/-- Attribute-substring selector (`[attr*="sub"]`, case sensitive). -/
def attrContains (d : Dom) (a sub : String) : Bool :=
  match getAttr (attrsOf d) a with
  | some v => containsStr v sub
  | none => false

/-- Exact attribute-value selector (`[attr="v"]`). -/
def attrEq (d : Dom) (a v : String) : Bool :=
  match getAttr (attrsOf d) a with
  | some x => x == v
  | none => false

/-- `a[href*="sub"]`. -/
def hrefContains (d : Dom) (sub : String) : Bool :=
  tagOf d == "a" && attrContains d "href" sub

/-- One selector attempt of content.js:293-303: query the card, read
`childNodes[0]?.textContent || el.textContent`, trim, and accept only a
plausible name length. -/
def extractTrySelector (card : Dom) (pred : Dom → Bool) : Option String :=
  match querySelectorD card pred with
  | none => none
  | some el =>
    let firstText :=
      match firstChildNode el with
      | some n => textContentD n
      | none => ""
    let raw := trimStr (if firstText == "" then textContentD el else firstText)
    if 1 < raw.length && raw.length < 60 then some (sanitiseName raw) else none

/-- Try the name-bearing selectors in order. -/
def extractBySelectors (card : Dom) : List (Dom → Bool) → Option String
  | [] => none
  | pred :: rest =>
    match extractTrySelector card pred with
    | some n => some n
    | none => extractBySelectors card rest

/-- `replace(/[·•].*$/, "")` on a single line. -/
def stripBadgeTail (l : List Char) : List Char :=
  l.takeWhile (fun c => !(c == '·' || c == '•'))

/-- The code points of the character class `[✓✔☑️]` (the emoji is a base
checkmark plus a variation selector, so the class has four members). -/
def checkmarkChars : List Char := ['✓', '✔', '☑', '\uFE0F']

/-- `replace(/[...]/, "")` without the `g` flag: drop the first member of
the class only. -/
def removeFirstOf (bad : List Char) : List Char → List Char
  | [] => []
  | c :: rest => if bad.contains c then rest else c :: removeFirstOf bad rest

/-- Fallback of content.js:305-316: first non-empty line of the flattened
text, with badge/checkmark decorations stripped. -/
def extractNameFallback (card : Dom) : String :=
  let text := trimStr (textContentD card)
  let lines := ((splitCharList (fun c => c == '\n') text.data).map trimChars).filter
    (fun l => decide (0 < l.length))
  match lines with
  | [] => "Unknown_Candidate"
  | l0 :: _ =>
    let name := trimStr (String.mk (removeFirstOf checkmarkChars (stripBadgeTail l0)))
    if 1 < name.length && name.length < 60 then sanitiseName name
    else "Unknown_Candidate"

/-- content.js:288-317 `extractNameFromCard`. -/
def extractNameFromCard (card : Dom) : String :=
  match extractBySelectors card
    [fun d => tagOf d == "h2", fun d => tagOf d == "h3", fun d => tagOf d == "h4",
     fun d => hrefContains d "/in/", fun d => hrefContains d "/talent/profile/"] with
  | some n => n
  | none => extractNameFallback card

/-! ### Scan strategies (content.js:125-286) -/

/-- Selector `[data-view-name*="applicant" i]` (case-insensitive value
substring). -/
def dataViewApplicant (d : Dom) : Bool :=
  match getAttr (attrsOf d) "data-view-name" with
  | some v => containsStr (toLowerStr v) "applicant"
  | none => false

/-- Attribute-presence selector `[componentkey]`. -/
def hasComponentKey (d : Dom) : Bool :=
  (getAttr (attrsOf d) "componentkey").isSome

/-- Marker test of the componentkey branch (content.js:138-143). -/
def s1LooksLikeCard (d : Dom) : Bool :=
  let text := textContentD d
  (containsStr text "Must-have" || containsStr text "Preferred" ||
   containsStr text "/3" || containsStr text "/5" ||
   containsStr text "1st" || containsStr text "2nd" || containsStr text "3rd") &&
  decide ((trimStr text).length < 500) && decide (20 < (trimStr text).length)

/-- Strategy 1 (content.js:128-157): all `[data-view-name*="applicant" i]`
elements, then all `[componentkey]` elements that look like cards and are
neither ancestors nor descendants of anything already found. -/
def strat1 (doc : Dom) : Found :=
  let es := elemsD doc []
  let f1 := es.foldl (fun acc pe =>
    if dataViewApplicant pe.2 && !hasKey acc pe.1 then
      acc ++ [(pe.1, extractNameFromCard pe.2)]
    else acc) []
  es.foldl (fun acc pe =>
    if hasComponentKey pe.2 && s1LooksLikeCard pe.2 && !hasKey acc pe.1 &&
       !(acc.any (fun kv => pathContains kv.1 pe.1 || pathContains pe.1 kv.1)) then
      acc ++ [(pe.1, extractNameFromCard pe.2)]
    else acc) f1

/-- Child-match test for the strategy-2 container scoring
(content.js:174-184). -/
def s2ChildMatch (c : Dom) : Bool :=
  let text := textContentD c
  (containsStr text "Must-have" || containsStr text "Preferred" ||
   containsStr text "/3" || containsStr text "/5") &&
  (containsStr text "1st" || containsStr text "2nd" || containsStr text "3rd" ||
   containsStr text "India" || containsStr text "·")

/-- Number of matching element children. -/
def s2Score (d : Dom) : Nat := ((childElems d).filter s2ChildMatch).length

/-- Best-scoring container (strict improvement, so the first maximum in
document order wins), skipping elements with fewer than two children
(content.js:167-190). -/
def s2Best (doc : Dom) : Option (List Nat × Dom) × Nat :=
  (elemsD doc []).foldl (fun acc pe =>
    if (childElems pe.2).length < 2 then acc
    else
      let score := s2Score pe.2
      if acc.2 < score then (some pe, score) else acc) (none, 0)

/-- Card test for the children of the chosen container
(content.js:195-199). -/
def s2InnerCard (c : Dom) : Bool :=
  let text := textContentD c
  (containsStr text "Must-have" || containsStr text "Preferred" ||
   containsStr text "/3" || containsStr text "/5") &&
  decide (20 < (trimStr text).length) && decide ((trimStr text).length < 500)

/-- Strategy 2 (content.js:159-205): find the scrollable list container by
scoring, then take its matching element children (only when the best score
is at least 2). -/
def strat2 (doc : Dom) : Found :=
  match s2Best doc with
  | (some (p, container), score) =>
    if 2 ≤ score then
      (childElemsIdx (childNodesOf container)).foldl (fun acc ic =>
        if s2InnerCard ic.2 && !hasKey acc (p ++ [ic.1]) then
          acc ++ [(p ++ [ic.1], extractNameFromCard ic.2)]
        else acc) []
    else []
  | (none, _) => []

/-- Item selector `[role="listitem"], li, [role="option"]`. -/
def isListItemSel (d : Dom) : Bool :=
  attrEq d "role" "listitem" || tagOf d == "li" || attrEq d "role" "option"

/-- Text test for strategy-3 items (content.js:213-216). -/
def s3ItemOk (text : String) : Bool :=
  decide (20 < (trimStr text).length) && decide ((trimStr text).length < 500) &&
  (containsStr text "·" || containsStr text "2nd" || containsStr text "3rd" ||
   containsStr text "1st")

/-- Strategy 3 (content.js:207-221): items of every `[role="list"]`. -/
def strat3 (doc : Dom) : Found :=
  (elemsD doc []).foldl (fun acc pe =>
    if attrEq pe.2 "role" "list" then
      (descendantsD pe.2 pe.1).foldl (fun acc2 it =>
        if isListItemSel it.2 && s3ItemOk (textContentD it.2) && !hasKey acc2 it.1 then
          acc2 ++ [(it.1, extractNameFromCard it.2)]
        else acc2) acc
    else acc) []

/-- Strategy 4 (content.js:223-232): anchors with applicant-record URLs,
walking up to the nearest list-item-like ancestor. -/
def strat4 (doc : Dom) : Found :=
  (elemsD doc []).foldl (fun acc pe =>
    if tagOf pe.2 == "a" &&
       (attrContains pe.2 "href" "applicationId" ||
        attrContains pe.2 "href" "applicant") then
      let card :=
        match closestD doc (fun d => tagOf d == "li") pe.1 with
        | some q => some q
        | none =>
          match closestD doc hasComponentKey pe.1 with
          | some q => some q
          | none => parentPath pe.1
      match card with
      | some q =>
        match getNodeAt doc q with
        | some cardNode =>
          if !hasKey acc q &&
             decide (20 < (trimStr (textContentD cardNode)).length) then
            acc ++ [(q, extractNameFromCard cardNode)]
          else acc
        | none => acc
      | none => acc
    else acc) []

/-- Landmark heading texts of strategy 5 (content.js:241). -/
def headingTexts : List String := ["Shortlist", "Applicants", "All applicants"]

/-- Structural filter of strategy-5 candidates (content.js:251-254,
negation of the `continue` conditions). -/
def s5CandOk (c : Dom) : Bool :=
  let cc := (childElems c).length
  let text := textContentD c
  !(cc == 0) && decide (cc ≤ 10) &&
  decide ((trimStr text).length ≤ 500) && decide (20 ≤ (trimStr text).length)

/-- Marker test of strategy-5 candidates (content.js:255-259). -/
def s5Markers (text : String) : Bool :=
  (containsStr text "·" || containsStr text "2nd" || containsStr text "3rd") &&
  (containsStr text "/3" || containsStr text "/5" || containsStr text "Must-have")

/-- Strategy 5 (content.js:234-267): from the first landmark heading text
node, walk five ancestor levels up and scan that container's descendants. -/
def strat5 (doc : Dom) : Found :=
  match (textNodesD doc []).find? (fun pn => headingTexts.contains (trimStr pn.2)) with
  | none => []
  | some (pp, _) =>
    match upN 5 pp with
    | none => []
    | some q =>
      match getNodeAt doc q with
      | none => []
      | some container =>
        (descendantsD container q).foldl (fun acc ce =>
          if s5CandOk ce.2 && s5Markers (textContentD ce.2) && !hasKey acc ce.1 then
            acc ++ [(ce.1, extractNameFromCard ce.2)]
          else acc) []

/-- content.js:269-278: collect the to-remove set (every strict ancestor of
another found element) and delete it; surviving insertion order is kept,
exactly as JS `Map` deletion does. -/
def dedupPass (found : Found) : Found :=
  found.filter (fun a => !(found.any (fun b => !(a.1 == b.1) && pathContains a.1 b.1)))

/-- The cascade of content.js:125-267: each later strategy runs only when
`found` is still empty. -/
def scanFound (doc : Dom) : Found :=
  let f1 := strat1 doc
  let f2 := if f1.isEmpty then strat2 doc else f1
  let f3 := if f2.isEmpty then strat3 doc else f2
  let f4 := if f3.isEmpty then strat4 doc else f3
  if f4.isEmpty then strat5 doc else f4

/-- content.js:125-286 `scanApplicantCards`: the cascade followed by the
ancestor de-duplication pass; the result is the `applicantCards` list. -/
def scanApplicantCards (doc : Dom) : Found :=
  dedupPass (scanFound doc)

/-! ### Cascade short-circuit (C4) and de-duplication (C7) -/

/-- C4: candidate-list discovery is a first-match-wins cascade.  Whenever
strategy 1 (the attribute-based match on `data-view-name` /
`componentkey` markers) yields at least one result, the collected set is
exactly strategy 1's, so strategies 2-5 contribute no elements, and the
returned list is strategy 1's results after the de-duplication pass. -/
theorem cascade_short_circuit (doc : Dom) (h1 : strat1 doc ≠ []) :
    scanFound doc = strat1 doc ∧
    scanApplicantCards doc = dedupPass (strat1 doc) := by
  have hne : (strat1 doc).isEmpty = false := by
    cases hl : strat1 doc with
    | nil => exact absurd hl h1
    | cons a as => rfl
  constructor
  · simp [scanFound, hne]
  · simp [scanApplicantCards, scanFound, hne]

/-- Document with two applicant cards carrying structural markers for
strategy 1 and, were it reached, strategy 3. -/
def c4WitnessDoc : Dom :=
  .elem "body" []
    [.elem "div" [("role", "list")]
      [.elem "div" [("data-view-name", "hiring-applicant-card"), ("role", "listitem")]
        [.elem "h3" [] [.text "Jane Doe"],
         .text "Must-have 3/3 · 2nd India West"],
       .elem "div" [("data-view-name", "hiring-applicant-tile"), ("role", "listitem")]
        [.elem "h3" [] [.text "Bob Roe"],
         .text "Preferred 4/5 · 3rd Chennai India"]]]

/-- Witness for C4: on `c4WitnessDoc`, strategy 1 matches, and the scan
result is strategy 1's alone even though strategy 3's selectors would also
match. -/
theorem cascade_short_circuit_witness :
    strat1 c4WitnessDoc ≠ [] ∧ scanFound c4WitnessDoc = strat1 c4WitnessDoc := by
  refine ⟨by decide, ?_⟩
  exact (cascade_short_circuit c4WitnessDoc (by decide)).1

/-- No ordered pair of distinct entries has the first containing the
second. -/
def noContainment (f : Found) : Bool :=
  f.all (fun a => f.all (fun b => a.1 == b.1 || !(pathContains a.1 b.1)))

theorem dedupPass_mem {f : Found} {a : List Nat × String}
    (ha : a ∈ dedupPass f) :
    a ∈ f ∧ (f.any (fun b => !(a.1 == b.1) && pathContains a.1 b.1)) = false := by
  have h := List.mem_filter.mp ha
  refine ⟨h.1, ?_⟩
  have h2 := h.2
  rwa [Bool.not_eq_true'] at h2

theorem noContainment_dedupPass (f : Found) :
    noContainment (dedupPass f) = true := by
  rw [noContainment, List.all_eq_true]
  intro a ha
  rw [List.all_eq_true]
  intro b hb
  obtain ⟨haf, hnone⟩ := dedupPass_mem ha
  obtain ⟨hbf, -⟩ := dedupPass_mem hb
  by_cases heq : (a.1 == b.1) = true
  · simp [heq]
  · by_cases hc : pathContains a.1 b.1 = true
    · have hcontra : f.any (fun x => !(a.1 == x.1) && pathContains a.1 x.1) = true := by
        refine List.any_eq_true.mpr ⟨b, hbf, ?_⟩
        rw [Bool.not_eq_true] at heq
        simp [heq, hc]
      rw [hcontra] at hnone
      cases hnone
    · rw [Bool.not_eq_true] at hc
      simp [hc]

/-- C7: after the de-duplication pass, the list returned by
`scanApplicantCards` contains no pair of distinct entries in which one is
an ancestor of (contains) the other; and every innermost collected match
(one containing no other collected match) survives the pass, so only the
innermost of a nested matched pair appears. -/
theorem dedup_no_containment (doc : Dom) :
    noContainment (scanApplicantCards doc) = true ∧
    ∀ p n, (p, n) ∈ scanFound doc →
      (∀ qm ∈ scanFound doc, pathContains p qm.1 = true → p = qm.1) →
      (p, n) ∈ scanApplicantCards doc := by
  constructor
  · exact noContainment_dedupPass _
  · intro p n hp hinner
    rw [scanApplicantCards]
    apply List.mem_filter.mpr
    refine ⟨hp, ?_⟩
    show (!((scanFound doc).any (fun b => !(p == b.1) && pathContains p b.1))) = true
    cases hany : (scanFound doc).any (fun b => !(p == b.1) && pathContains p b.1) with
    | false => rfl
    | true =>
      obtain ⟨qm, hqm, hcond⟩ := List.any_eq_true.mp hany
      simp only [Bool.and_eq_true, Bool.not_eq_true'] at hcond
      obtain ⟨hne, hct⟩ := hcond
      have hpe := hinner qm hqm hct
      rw [hpe] at hne
      simp at hne

/-- Document in which a matched element strictly contains another matched
element (both carry `data-view-name` applicant markers). -/
def c7WitnessDoc : Dom :=
  .elem "body" []
    [.elem "div" [("data-view-name", "applicant-row")]
      [.elem "div" [("data-view-name", "applicant-name")]
        [.elem "h2" [] [.text "Jane Doe"]]]]

/-- Witness for C7: both the outer and the inner element are collected,
and only the inner one is returned. -/
theorem dedup_no_containment_witness :
    noContainment (scanApplicantCards c7WitnessDoc) = true ∧
    ([0, 0], "Jane_Doe") ∈ scanApplicantCards c7WitnessDoc ∧
    ([0], "Jane_Doe") ∈ scanFound c7WitnessDoc ∧
    ¬(([0], "Jane_Doe") ∈ scanApplicantCards c7WitnessDoc) := by
  have h := dedup_no_containment c7WitnessDoc
  exact ⟨h.1, h.2 [0, 0] "Jane_Doe" (by decide) (by decide), by decide, by decide⟩

end LBRD
